import Mathlib

/-! # akp48-plugin-github-listener: branch matching and update orchestration

A shallow embedding of `src/main.js`: the branch-pattern matcher
(`GitHubListener.prototype.compare`), the branch policy (`shouldUpdate`), the
file classification inside `handle`, the repository driver (`fetch`,
`checkout`) and `handle` itself, read as a function from its inputs and the
outcomes of the external commands to the sequence of effects it issues.

JavaScript strings are sequences of UTF-16 code units; every index used by the
source (`indexOf`, `lastIndexOf`, `substring`) counts code units, so a string
is embedded as the list of its code units.
-/

namespace GitHubListener

/-! ## JavaScript strings -/

/-- A JavaScript string: the list of its UTF-16 code units. -/
abbrev JSString := List Nat

/-- UTF-16 encoding of one character: itself in the basic plane, a surrogate
pair above it. -/
def utf16 (c : Char) : List Nat :=
  if c.toNat < 0x10000 then [c.toNat]
  else [0xD800 + (c.toNat - 0x10000) / 0x400, 0xDC00 + (c.toNat - 0x10000) % 0x400]

/-- The JavaScript string written by a literal. -/
def js (s : String) : JSString :=
  s.toList.flatMap utf16

/-- Clamping of an index argument of `substring` to `[0, len]`. -/
def clampIndex (n : Int) (len : Nat) : Nat :=
  min n.toNat len

/-- `s.substring(start, end)`: both indices are clamped to `[0, s.length]` and
swapped when `start > end`; the result is the code units in `[from, to)`. -/
def substring (s : JSString) (start end_ : Int) : JSString :=
  let a := clampIndex start s.length
  let b := clampIndex end_ s.length
  (s.drop (min a b)).take (max a b - min a b)

/-- `s.substring(start)`: the end index defaults to `s.length`. -/
def substringFrom (s : JSString) (start : Int) : JSString :=
  substring s start s.length

/-- `s.startsWith(search)`. -/
def startsWith (s search : JSString) : Bool :=
  search.isPrefixOf s

/-- `s.endsWith(search)`. -/
def endsWith (s search : JSString) : Bool :=
  search.isSuffixOf s

/-- `s.includes(search)`: `search` occurs in `s` at some position. -/
def includes : JSString → JSString → Bool
  | [], search => search.isPrefixOf []
  | c :: s, search => search.isPrefixOf (c :: s) || includes s search

/-- Modelled from the spec: `String.prototype.contains`, which `compare` calls
and which is neither standard JavaScript nor defined under `src/`. The spec
reads it as "`actual` contains the substring", that is substring inclusion,
the meaning of the standard `includes`. -/
def contains (s search : JSString) : Bool :=
  includes s search

/-- Worker of `indexOf`: the first position, counted from `i`, at which
`search` occurs, or `-1`. -/
def indexOfFrom (search : JSString) : JSString → Nat → Int
  | [], i => if search.isPrefixOf [] then (i : Int) else -1
  | c :: s, i => if search.isPrefixOf (c :: s) then (i : Int) else indexOfFrom search s (i + 1)

/-- `s.indexOf(search)`. -/
def indexOf (s search : JSString) : Int :=
  indexOfFrom search s 0

/-- Worker of `lastIndexOf`: the last position, counted from `i`, at which
`search` occurs, or `-1`. -/
def lastIndexOfFrom (search : JSString) : JSString → Nat → Int
  | [], i => if search.isPrefixOf [] then (i : Int) else -1
  | c :: s, i =>
    let r := lastIndexOfFrom search s (i + 1)
    if r ≠ -1 then r else if search.isPrefixOf (c :: s) then (i : Int) else -1

/-- `s.lastIndexOf(search)`. -/
def lastIndexOf (s search : JSString) : Int :=
  lastIndexOfFrom search s 0

/-! ## `compare` and `shouldUpdate` -/

/-- `GitHubListener.prototype.compare(original, other)`. -/
def compare (original other : JSString) : Bool :=
  if other = js "*" ∨ original = other then
    true
  else if startsWith other (js "!") || startsWith other (js "-") then
    decide (original ≠ substringFrom other 1)
  else
    let star := indexOf other (js "*")
    let star2 := lastIndexOf other (js "*")
    if star ≠ -1 then
      if star2 > star then
        contains original (substring other (star + 1) (star2 - 1))
      else if star = 0 then
        endsWith original (substringFrom other (star + 1))
      else
        startsWith original (substringFrom other (star - 1))
    else
      false

/-- The configured `branch`: an array of patterns or a single pattern. -/
inductive BranchSpec where
  | array (patterns : List JSString)
  | single (pattern : JSString)

/-- The `for` loop of `shouldUpdate` over the array, from index `x` on:
returns `true` at the first pattern that matches, `false` at the end. -/
def shouldUpdateLoop (branch : JSString) : List JSString → Bool
  | [] => false
  | _branch :: rest => if compare branch _branch then true else shouldUpdateLoop branch rest

/-- `GitHubListener.prototype.shouldUpdate(branch)`, with `this.config.branch`
as `updateBranch`. -/
def shouldUpdate (updateBranch : BranchSpec) (branch : JSString) : Bool :=
  match updateBranch with
  | .array patterns => shouldUpdateLoop branch patterns
  | .single pattern => compare branch pattern

/-! ## Classification of the commit batch in `handle` -/

/-- A commit of the push payload, as far as `handle` reads it: the arrays
`modified` and `created`. -/
structure Commit where
  modified : List JSString
  created : List JSString

/-- The two flags `handle` computes: `shutdown` (restart instead of reload)
and `npm` (reinstall the dependencies). -/
structure Flags where
  shutdown : Bool
  npm : Bool
  deriving DecidableEq, Repr

/-- The local `hot_files` of `handle`. -/
def hot_files : List JSString := [js "app.js"]

/-- Worker of `Array.prototype.indexOf`: the first index, counted from `i`, of
an element strictly equal to `x`, or `-1`. -/
def arrayIndexOfFrom (x : JSString) : List JSString → Nat → Int
  | [], _ => -1
  | y :: ys, i => if y = x then (i : Int) else arrayIndexOfFrom x ys (i + 1)

/-- `xs.indexOf(x)` on an array of strings. -/
def arrayIndexOf (xs : List JSString) (x : JSString) : Int :=
  arrayIndexOfFrom x xs 0

/-- The loop `for (var file in com.modified)`: the listed paths in index
order, each tested against `hot_files` and for the text `package.json`. -/
def scanModified : List JSString → Flags → Flags
  | [], fl => fl
  | path :: rest, fl =>
    let fl1 := if arrayIndexOf hot_files path ≠ -1 then { fl with shutdown := true } else fl
    let fl2 := if includes path (js "package.json") then { fl1 with npm := true } else fl1
    scanModified rest fl2

/-- The loop `for (var f in com.created)`: `f` runs over the indices of
`com.created`, and the body reads `com.modified`, not `com.created`: it asks
whether `com.modified` has the index `f` and tests `com.modified[f]`. -/
def scanCreated (modified : List JSString) : List Nat → Flags → Flags
  | [], fl => fl
  | f :: rest, fl =>
    match modified[f]? with
    | some path =>
      scanCreated modified rest
        (if includes path (js "package.json") then { fl with npm := true } else fl)
    | none => scanCreated modified rest fl

/-- The loop `for (var commit in data.commits)`. -/
def scanCommits : List Commit → Flags → Flags
  | [], fl => fl
  | com :: rest, fl =>
    scanCommits rest
      (scanCreated com.modified (List.range com.created.length) (scanModified com.modified fl))

/-- The classification in `handle`: both flags start as `changing_branch`, and
the commits are scanned only when `shutdown` is not already set. -/
def classify (changing_branch : Bool) (commits : List Commit) : Flags :=
  let fl : Flags := { shutdown := changing_branch, npm := changing_branch }
  if !fl.shutdown then scanCommits commits fl else fl

/-! ## The repository driver and `handle` -/

/-- What `getRepoInfo()` reports of the working copy, as far as the source
reads it: `branch` and `tag`, each a string or `null`. -/
structure RepoInfo where
  branch : Option JSString
  tag : Option JSString

/-- JavaScript truthiness of a value that is a string or `null`. -/
def truthy : Option JSString → Bool
  | none => false
  | some s => !s.isEmpty

/-- A directory `handle` changes into. -/
inductive Dir where
  /-- The value of `require('app-root-path').path`. -/
  | appRoot
  /-- The value of `path.dirname(path.resolve(file))` for a file found by glob. -/
  | pluginDir (file : JSString)
  deriving DecidableEq, Repr

/-- The effects `handle` issues (logging left out). -/
inductive Action where
  /-- The call `shell.exec('git fetch')`. -/
  | gitFetch
  /-- The call `shell.exec('git checkout -q ' + branch)`. -/
  | gitCheckout (branch : JSString)
  /-- The call `shell.exec('git reset -q origin/' + branch + ' --hard')`. -/
  | gitReset (branch : JSString)
  /-- The call `shell.cd(dir)`. -/
  | cd (dir : Dir)
  /-- The call `shell.exec('npm install')`, with or without a callback. -/
  | npmInstall
  /-- The call `glob(pluginPath, callback)`. -/
  | glob
  /-- The call `self._AKP48.shutdown(...)`. -/
  | shutdown
  /-- The call `self._AKP48.reload()`. -/
  | reload
  deriving DecidableEq, Repr

/-- An `npm install`. -/
def Action.isInstall : Action → Bool
  | .npmInstall => true
  | _ => false

/-- A terminal action on the host: `shutdown` or `reload`. -/
def Action.isTerminal : Action → Bool
  | .shutdown => true
  | .reload => true
  | _ => false

/-- A git command. -/
def Action.isGit : Action → Bool
  | .gitFetch => true
  | .gitCheckout _ => true
  | .gitReset _ => true
  | _ => false

/-- Everything outside `handle` that a run depends on: the configuration, the
working copy and the outcomes of the external commands. -/
structure World where
  /-- Whether `shell.which('git')` is truthy. -/
  hasGit : Bool
  /-- The field `this._isRepo`. -/
  isRepo : Bool
  /-- Truthiness of `this.config.autoUpdate`. -/
  autoUpdate : Bool
  /-- What `getRepoInfo()` reports until `git checkout` has run. -/
  repo : RepoInfo
  /-- Exit code of `git fetch`. -/
  fetchCode : Nat
  /-- Exit code of `git checkout`. -/
  checkoutCode : Nat
  /-- What `getRepoInfo()` reports once `git checkout` has exited with code 0. -/
  repoAfterCheckout : RepoInfo
  /-- Exit code of `git reset`. -/
  resetCode : Nat
  /-- Exit code of `npm install` in a directory; the source never reads it. -/
  npmCode : Dir → Nat
  /-- What glob passes to its callback: an error, or the files found. -/
  globResult : Except JSString (List JSString)

/-- `GitHubListener.prototype.fetch()`: the effects issued and whether the
result is `true` (the other result is `undefined`). -/
def fetch (w : World) : List Action × Bool :=
  if w.fetchCode ≠ 0 then ([Action.gitFetch], false) else ([Action.gitFetch], true)

/-- `GitHubListener.prototype.checkout(branch)`: the effects issued and whether
the result is `true` (the other result is `undefined`). -/
def checkout (w : World) (branch : JSString) : List Action × Bool :=
  if branch.isEmpty then ([], false)
  else
    let fetched := fetch w
    if !fetched.2 then (fetched.1, false)
    else if w.repo.branch ≠ some branch then
      if w.checkoutCode ≠ 0 then (fetched.1 ++ [Action.gitCheckout branch], false)
      else if truthy w.repoAfterCheckout.branch || truthy w.repoAfterCheckout.tag then
        if w.resetCode ≠ 0 then
          (fetched.1 ++ [Action.gitCheckout branch, Action.gitReset branch], false)
        else (fetched.1 ++ [Action.gitCheckout branch, Action.gitReset branch], true)
      else (fetched.1 ++ [Action.gitCheckout branch], true)
    else if truthy w.repo.branch || truthy w.repo.tag then
      if w.resetCode ≠ 0 then (fetched.1 ++ [Action.gitReset branch], false)
      else (fetched.1 ++ [Action.gitReset branch], true)
    else (fetched.1, true)

/-- The second loop of the glob callback: for each directory `shell.cd`, then
`npm install` when `npm` is set. -/
def installPlugins (npm : Bool) : List JSString → List Action
  | [] => []
  | file :: rest =>
    if npm then Action.cd (Dir.pluginDir file) :: Action.npmInstall :: installPlugins npm rest
    else Action.cd (Dir.pluginDir file) :: installPlugins npm rest

/-- `GitHubListener.prototype.handle(branch, data)`, with `data.commits` as
`commits`: the effects of one run, in the order they are issued. Every
external command is taken to exit; the terminal action follows the installs
because it runs once every install promise has resolved. -/
def handle (w : World) (branch : JSString) (commits : List Commit) : List Action :=
  if !w.hasGit || !w.isRepo then []
  else
    let changing_branch : Bool := decide (some branch ≠ w.repo.branch)
    let update : Bool := w.autoUpdate && (decide (commits.length ≠ 0) || changing_branch)
    if !update then []
    else
      let fl := classify changing_branch commits
      let co := checkout w branch
      if !co.2 then co.1
      else
        let root : List Action :=
          if fl.npm then [Action.cd Dir.appRoot, Action.npmInstall] else []
        match w.globResult with
        | .error _ => co.1 ++ root ++ [Action.glob]
        | .ok files =>
          co.1 ++ root ++ [Action.glob] ++ installPlugins fl.npm files ++
            [if fl.shutdown then Action.shutdown else Action.reload]

/-! ## Worlds used in the examples -/

/-- A working copy on branch `master`, every command succeeding, glob finding
two plugins. -/
def onMaster : World where
  hasGit := true
  isRepo := true
  autoUpdate := true
  repo := { branch := some (js "master"), tag := none }
  fetchCode := 0
  checkoutCode := 0
  repoAfterCheckout := { branch := some (js "master"), tag := none }
  resetCode := 0
  npmCode := fun _ => 0
  globResult := .ok [js "plugins/a/plugin.json", js "plugins/b/plugin.json"]

/-- The world `onMaster` with glob reporting an error. -/
def onMasterGlobError : World :=
  { onMaster with globResult := .error (js "EACCES") }

/-! ## Facts about the string primitives -/

theorem js_star : js "*" = [42] := by decide

theorem js_bang : js "!" = [33] := by decide

theorem js_dash : js "-" = [45] := by decide

theorem isPrefixOf_single (c d : Nat) (s : List Nat) :
    [c].isPrefixOf (d :: s) = (c == d) := by
  simp [List.isPrefixOf]

theorem single_infix_iff (c : Nat) (s : List Nat) : [c] <:+: s ↔ c ∈ s := by
  constructor
  · intro h
    exact h.subset (List.mem_singleton_self c)
  · intro h
    obtain ⟨l, r, rfl⟩ := List.append_of_mem h
    exact ⟨l, r, by simp⟩

theorem includes_iff (s search : JSString) : includes s search = true ↔ search <:+: s := by
  induction s with
  | nil => simp [includes]
  | cons c s ih => simp [includes, ih, List.infix_cons_iff]

theorem startsWith_iff (s search : JSString) : startsWith s search = true ↔ search <+: s := by
  simp [startsWith]

theorem endsWith_iff (s search : JSString) : endsWith s search = true ↔ search <:+ s := by
  simp [endsWith]

theorem substringFrom_one (c : Nat) (s : JSString) : substringFrom (c :: s) 1 = s := by
  simp [substringFrom, substring, clampIndex]

theorem clampIndex_natCast (n len : Nat) : clampIndex ((n : Nat) : Int) len = min n len := by
  simp [clampIndex]

theorem substring_natCast (s : JSString) (a b : Nat) (hab : a ≤ b) (hb : b ≤ s.length) :
    substring s ((a : Nat) : Int) ((b : Nat) : Int) = (s.drop a).take (b - a) := by
  have ha : a ≤ s.length := Nat.le_trans hab hb
  simp only [substring, clampIndex_natCast]
  rw [Nat.min_eq_left ha, Nat.min_eq_left hb, Nat.min_eq_left hab, Nat.max_eq_right hab]

theorem substringFrom_natCast (s : JSString) (n : Nat) (h : n ≤ s.length) :
    substringFrom s ((n : Nat) : Int) = s.drop n := by
  rw [substringFrom, substring_natCast s n s.length h (Nat.le_refl _)]
  exact List.take_of_length_le (by simp)

theorem indexOfFrom_not_mem (c : Nat) (s : JSString) (i : Nat) (h : c ∉ s) :
    indexOfFrom [c] s i = -1 := by
  induction s generalizing i with
  | nil => simp [indexOfFrom]
  | cons d s ih =>
    simp only [List.mem_cons, not_or] at h
    simp [indexOfFrom, isPrefixOf_single, h.1, ih (i + 1) h.2]

theorem indexOfFrom_append (c : Nat) (p q : JSString) (i : Nat) (h : c ∉ p) :
    indexOfFrom [c] (p ++ c :: q) i = ((i + p.length : Nat) : Int) := by
  induction p generalizing i with
  | nil => simp [indexOfFrom, isPrefixOf_single]
  | cons d p ih =>
    simp only [List.mem_cons, not_or] at h
    have e : (d :: p) ++ c :: q = d :: (p ++ c :: q) := rfl
    rw [e, indexOfFrom, isPrefixOf_single, if_neg (by simpa using h.1), ih (i + 1) h.2]
    simp only [List.length_cons]
    congr 1
    omega

theorem lastIndexOfFrom_not_mem (c : Nat) (s : JSString) (i : Nat) (h : c ∉ s) :
    lastIndexOfFrom [c] s i = -1 := by
  induction s generalizing i with
  | nil => simp [lastIndexOfFrom]
  | cons d s ih =>
    simp only [List.mem_cons, not_or] at h
    simp [lastIndexOfFrom, isPrefixOf_single, h.1, ih (i + 1) h.2]

theorem lastIndexOfFrom_append (c : Nat) (p q : JSString) (i : Nat) (h : c ∉ q) :
    lastIndexOfFrom [c] (p ++ c :: q) i = ((i + p.length : Nat) : Int) := by
  induction p generalizing i with
  | nil =>
    simp [lastIndexOfFrom, isPrefixOf_single, lastIndexOfFrom_not_mem c q (i + 1) h]
  | cons d p ih =>
    have e : (d :: p) ++ c :: q = d :: (p ++ c :: q) := rfl
    rw [e, lastIndexOfFrom]
    simp only [ih (i + 1), List.length_cons]
    rw [if_pos (by omega)]
    congr 1
    omega

/-! ## The pattern matcher -/

theorem compare_negated_cons (a x : JSString) (c : Nat) (hc : c = 33 ∨ c = 45) :
    compare a (c :: x) = decide (a ≠ x) := by
  have h42 : c ≠ 42 := by omega
  unfold compare
  rw [js_star, js_bang, js_dash]
  by_cases hax : a = c :: x
  · have hne : a ≠ x := by
      intro h
      have hl := congrArg List.length hax
      rw [h] at hl
      simp at hl
    simp [hax, hne]
  · have hp : (startsWith (c :: x) [33] || startsWith (c :: x) [45]) = true := by
      rcases hc with rfl | rfl <;> simp [startsWith, isPrefixOf_single]
    rw [if_neg (by simp [h42, hax]), if_pos hp, substringFrom_one]

theorem compare_no_star (a p : JSString) (hstar : 42 ∉ p)
    (hneg : (startsWith p [33] || startsWith p [45]) = false) :
    compare a p = decide (a = p) := by
  unfold compare
  rw [js_star, js_bang, js_dash]
  by_cases hap : a = p
  · simp [hap]
  · have h1 : ¬ (p = [42] ∨ a = p) := by
      rintro (h | h)
      · exact hstar (by simp [h])
      · exact hap h
    rw [if_neg h1, hneg]
    simp [indexOf, indexOfFrom_not_mem 42 p 0 hstar, hap]

theorem compare_star_cons (a s : JSString) (hs : s ≠ []) (hstar : 42 ∉ s) (ha : a ≠ 42 :: s) :
    compare a (42 :: s) = endsWith a s := by
  have hi : indexOf (42 :: s) [42] = 0 := by
    simpa [indexOf] using indexOfFrom_append 42 [] s 0 (by simp)
  have hl : lastIndexOf (42 :: s) [42] = 0 := by
    simpa [lastIndexOf] using lastIndexOfFrom_append 42 [] s 0 hstar
  unfold compare
  rw [js_star, js_bang, js_dash, if_neg (by simp [hs, ha])]
  have hp : (startsWith (42 :: s) [33] || startsWith (42 :: s) [45]) = false := by
    simp [startsWith, isPrefixOf_single]
  rw [hp]
  simp only [hi, hl]
  simp [substringFrom_one]

theorem compare_prefix_star (a p : JSString) (c : Nat) (hstar : 42 ∉ p ++ [c])
    (hneg : (startsWith (p ++ [c, 42]) [33] || startsWith (p ++ [c, 42]) [45]) = false)
    (ha : a ≠ p ++ [c, 42]) :
    compare a (p ++ [c, 42]) = startsWith a [c, 42] := by
  have e : p ++ [c, 42] = (p ++ [c]) ++ 42 :: [] := by simp
  have hi : indexOf (p ++ [c, 42]) [42] = ((p.length + 1 : Nat) : Int) := by
    rw [e, indexOf, indexOfFrom_append 42 (p ++ [c]) [] 0 hstar]
    simp
  have hl : lastIndexOf (p ++ [c, 42]) [42] = ((p.length + 1 : Nat) : Int) := by
    rw [e, lastIndexOf, lastIndexOfFrom_append 42 (p ++ [c]) [] 0 (by simp)]
    simp
  have hsub : substringFrom (p ++ [c, 42]) (((p.length + 1 : Nat) : Int) - 1) = [c, 42] := by
    have h1 : (((p.length + 1 : Nat) : Int) - 1) = ((p.length : Nat) : Int) := by
      push_cast
      omega
    rw [h1, substringFrom_natCast _ _ (by simp)]
    simp
  have hne : p ++ [c, 42] ≠ [42] := by
    intro h
    have hlen := congrArg List.length h
    simp at hlen
  unfold compare
  rw [js_star, js_bang, js_dash, if_neg (by simp [hne, ha]), hneg]
  simp only [hi, hl]
  split_ifs with h1 h2 h3
  all_goals first
    | contradiction
    | rw [hsub]
    | (exfalso; omega)

theorem compare_between_stars (a m : JSString) (hm : m ≠ [])
    (ha : a ≠ 42 :: (m ++ [42])) :
    compare a (42 :: (m ++ [42])) = contains a m.dropLast := by
  have e : 42 :: (m ++ [42]) = (42 :: m) ++ 42 :: [] := by simp
  have hi : indexOf (42 :: (m ++ [42])) [42] = ((0 : Nat) : Int) := by
    simpa [indexOf] using indexOfFrom_append 42 [] (m ++ [42]) 0 (by simp)
  have hl : lastIndexOf (42 :: (m ++ [42])) [42] = ((m.length + 1 : Nat) : Int) := by
    rw [e, lastIndexOf, lastIndexOfFrom_append 42 (42 :: m) [] 0 (by simp)]
    simp
  have hpos : 0 < m.length := List.length_pos.mpr hm
  have hsub : substring (42 :: (m ++ [42])) (((0 : Nat) : Int) + 1)
      (((m.length + 1 : Nat) : Int) - 1) = m.dropLast := by
    have h1 : (((m.length + 1 : Nat) : Int) - 1) = ((m.length : Nat) : Int) := by
      push_cast
      omega
    have h0 : (((0 : Nat) : Int) + 1) = ((1 : Nat) : Int) := by simp
    rw [h1, h0, substring_natCast _ _ _ hpos (by simp; omega)]
    simp [List.take_append_eq_append_take, List.dropLast_eq_take]
  have hp : (startsWith (42 :: (m ++ [42])) [33] || startsWith (42 :: (m ++ [42])) [45])
      = false := by
    simp [startsWith, isPrefixOf_single]
  unfold compare
  rw [js_star, js_bang, js_dash, if_neg (by simp [ha]), hp]
  simp only [hi, hl]
  split_ifs with h1 h2 h3
  all_goals first
    | contradiction
    | rw [hsub]
    | (exfalso; omega)

theorem shouldUpdateLoop_iff (b : JSString) (L : List JSString) :
    shouldUpdateLoop b L = true ↔ ∃ p ∈ L, compare b p = true := by
  induction L with
  | nil => simp [shouldUpdateLoop]
  | cons q L ih =>
    by_cases hq : compare b q = true
    · simp [shouldUpdateLoop, hq]
    · simp [shouldUpdateLoop, hq, ih]

/-- C1: the prefix-wildcard branch of `compare` does not test the text before
the `*`. For the pattern `feature/*` the star is at index 8 and the code tests
`original.startsWith(other.substring(7))`, that is `startsWith("/*")`: the
branch `feature/foo`, which starts with `feature/`, is not matched, while
`/*x`, which does not, is. -/
theorem compare_prefix_wildcard_at_feature :
    compare (js "feature/foo") (js "feature/*") = false
      ∧ startsWith (js "feature/foo") (js "feature/") = true
      ∧ substringFrom (js "feature/*") (indexOf (js "feature/*") (js "*") - 1) = js "/*"
      ∧ compare (js "/*x") (js "feature/*") = true
      ∧ startsWith (js "/*x") (js "feature/") = false
      ∧ compare (js "main") (js "feature/*") = false := by
  decide

/-- C2: the two-wildcard branch of `compare` does not test the text between
the wildcards. For `*x*` the code tests `contains(other.substring(1, 1))`, the
empty string, so `main` is matched although it does not contain `x`; for
`*feature*` it tests `featur`; for `**` the indices are swapped by `substring`
and it tests `*`, so `main` is not matched although it contains the empty
text between the wildcards. -/
theorem compare_substring_wildcard_at_x :
    compare (js "main") (js "*x*") = true
      ∧ contains (js "main") (js "x") = false
      ∧ substring (js "*x*") (indexOf (js "*x*") (js "*") + 1)
          (lastIndexOf (js "*x*") (js "*") - 1) = js ""
      ∧ compare (js "featurX") (js "*feature*") = true
      ∧ contains (js "featurX") (js "feature") = false
      ∧ compare (js "main") (js "**") = false
      ∧ contains (js "main") (js "") = true := by
  decide

/-- C3: for a pattern `p` that contains no `*` and starts with neither `!` nor
`-`, `compare a p` is true iff `a` equals `p`. -/
theorem compare_literal (a p : JSString) (hstar : ¬ js "*" <:+: p)
    (hbang : ¬ js "!" <+: p) (hdash : ¬ js "-" <+: p) :
    compare a p = true ↔ a = p := by
  rw [js_star, single_infix_iff] at hstar
  rw [js_bang, ← startsWith_iff, Bool.not_eq_true] at hbang
  rw [js_dash, ← startsWith_iff, Bool.not_eq_true] at hdash
  rw [compare_no_star a p hstar (by rw [hbang, hdash]; rfl)]
  simp

/-- The literal pattern `master` against the branch `mastery`, of which it is
a proper prefix: the match is decided by equality alone. -/
theorem compare_literal_witness :
    ¬ js "*" <:+: js "master" ∧ ¬ js "!" <+: js "master" ∧ ¬ js "-" <+: js "master"
      ∧ (compare (js "mastery") (js "master") = true ↔ js "mastery" = js "master") :=
  ⟨by decide, by decide, by decide,
    compare_literal (js "mastery") (js "master") (by decide) (by decide) (by decide)⟩

/-- C4: for every `a` and every `x`, `compare a ("!" + x)` and
`compare a ("-" + x)` both equal `a != x`, whatever `x` contains and also
when `a` is the pattern itself. -/
theorem compare_negation (a x : JSString) :
    compare a (js "!" ++ x) = decide (a ≠ x) ∧ compare a (js "-" ++ x) = decide (a ≠ x) := by
  rw [js_bang, js_dash]
  exact ⟨compare_negated_cons a x 33 (Or.inl rfl), compare_negated_cons a x 45 (Or.inr rfl)⟩

/-- C5: for `s` without `*`, `compare a ("*" + s)` is true iff `a` ends with
`s`; the pattern `*` matches every `a`; `*1.2` matches `release-1.2` and not
`release-1.3`. -/
theorem compare_suffix_wildcard (a s : JSString) (hstar : ¬ js "*" <:+: s) :
    (compare a (js "*" ++ s) = true ↔ s <:+ a)
      ∧ compare a (js "*") = true
      ∧ compare (js "release-1.2") (js "*1.2") = true
      ∧ compare (js "release-1.3") (js "*1.2") = false := by
  rw [js_star, single_infix_iff] at hstar
  refine ⟨?_, ?_, by decide, by decide⟩
  · rw [js_star]
    show compare a (42 :: s) = true ↔ s <:+ a
    by_cases hs : s = []
    · subst hs
      simp [compare, js_star]
    · by_cases ha : a = 42 :: s
      · subst ha
        simp [compare, List.suffix_cons]
      · rw [compare_star_cons a s hs hstar ha, endsWith_iff]
  · simp [compare]

/-- The suffix pattern `*1.2` against the branch `release-1.2`. -/
theorem compare_suffix_wildcard_witness :
    ¬ js "*" <:+: js "1.2"
      ∧ (compare (js "release-1.2") (js "*" ++ js "1.2") = true ↔ js "1.2" <:+ js "release-1.2") :=
  ⟨by decide, (compare_suffix_wildcard (js "release-1.2") (js "1.2") (by decide)).1⟩

/-- C6: `shouldUpdate` on an array `L` is true iff some element of `L` matches
(false for the empty array, true when `L` holds `*` or the branch itself); on
a single pattern it is `compare`. -/
theorem shouldUpdate_policy (b : JSString) :
    (∀ L : List JSString,
        shouldUpdate (BranchSpec.array L) b = true ↔ ∃ p ∈ L, compare b p = true)
      ∧ shouldUpdate (BranchSpec.array []) b = false
      ∧ (∀ L : List JSString, js "*" ∈ L → shouldUpdate (BranchSpec.array L) b = true)
      ∧ (∀ L : List JSString, b ∈ L → shouldUpdate (BranchSpec.array L) b = true)
      ∧ (∀ p : JSString, shouldUpdate (BranchSpec.single p) b = compare b p) := by
  refine ⟨fun L => shouldUpdateLoop_iff b L, rfl, ?_, ?_, fun _ => rfl⟩
  · intro L hL
    exact (shouldUpdateLoop_iff b L).mpr ⟨js "*", hL, by simp [compare]⟩
  · intro L hL
    exact (shouldUpdateLoop_iff b L).mpr ⟨b, hL, by simp [compare]⟩

/-! ## The classification -/

theorem arrayIndexOf_hot_files (path : JSString) :
    arrayIndexOf hot_files path ≠ -1 ↔ path = js "app.js" := by
  by_cases h : js "app.js" = path
  · simp [arrayIndexOf, arrayIndexOfFrom, hot_files, h]
  · simp [arrayIndexOf, arrayIndexOfFrom, hot_files, h, Ne.symm h]

theorem scanModified_cons (path : JSString) (rest : List JSString) (fl : Flags) :
    scanModified (path :: rest) fl
      = scanModified rest
          { shutdown := fl.shutdown || decide (path = js "app.js"),
            npm := fl.npm || includes path (js "package.json") } := by
  have e1 : (arrayIndexOf hot_files path ≠ -1) = (path = js "app.js") :=
    propext (arrayIndexOf_hot_files path)
  rw [scanModified]
  simp only [e1]
  congr 1
  cases fl with
  | mk sd nm =>
    by_cases h1 : path = js "app.js"
    · by_cases h2 : includes path (js "package.json") = true
      · rw [if_pos h1, if_pos h2, decide_eq_true h1, h2]
        simp
      · rw [if_pos h1, if_neg h2, decide_eq_true h1, (Bool.not_eq_true _).mp h2]
        simp
    · by_cases h2 : includes path (js "package.json") = true
      · rw [if_neg h1, if_pos h2, decide_eq_false h1, h2]
        simp
      · rw [if_neg h1, if_neg h2, decide_eq_false h1, (Bool.not_eq_true _).mp h2]
        simp

theorem scanModified_shutdown (ms : List JSString) (fl : Flags) :
    (scanModified ms fl).shutdown = true ↔ fl.shutdown = true ∨ ∃ f ∈ ms, f = js "app.js" := by
  induction ms generalizing fl with
  | nil => simp [scanModified]
  | cons path rest ih =>
    rw [scanModified_cons, ih]
    simp only [Bool.or_eq_true, decide_eq_true_eq, List.mem_cons, exists_eq_or_imp, or_assoc]

theorem scanModified_npm (ms : List JSString) (fl : Flags) :
    (scanModified ms fl).npm = true
      ↔ fl.npm = true ∨ ∃ f ∈ ms, includes f (js "package.json") = true := by
  induction ms generalizing fl with
  | nil => simp [scanModified]
  | cons path rest ih =>
    rw [scanModified_cons, ih]
    simp only [Bool.or_eq_true, List.mem_cons, exists_eq_or_imp, or_assoc]

theorem scanCreated_idle (ms : List JSString) (idx : List Nat) (fl : Flags)
    (h : ∀ f ∈ ms, includes f (js "package.json") = true → fl.npm = true) :
    scanCreated ms idx fl = fl := by
  induction idx with
  | nil => rfl
  | cons i rest ih =>
    rw [scanCreated]
    cases hi : ms[i]? with
    | none => simpa using ih
    | some path =>
      simp only
      by_cases hp : includes path (js "package.json") = true
      · have hn : fl.npm = true := h path (List.getElem?_mem hi) hp
        have e : ({ fl with npm := true } : Flags) = fl := by
          cases fl
          simp_all
        rw [if_pos hp, e]
        exact ih
      · rw [if_neg hp]
        exact ih

theorem scanCommits_step (com : Commit) (rest : List Commit) (fl : Flags) :
    scanCommits (com :: rest) fl = scanCommits rest (scanModified com.modified fl) := by
  rw [scanCommits, scanCreated_idle]
  intro f hf hinc
  exact (scanModified_npm com.modified fl).mpr (Or.inr ⟨f, hf, hinc⟩)

theorem scanCommits_shutdown (cs : List Commit) (fl : Flags) :
    (scanCommits cs fl).shutdown = true
      ↔ fl.shutdown = true ∨ ∃ c ∈ cs, ∃ f ∈ c.modified, f = js "app.js" := by
  induction cs generalizing fl with
  | nil => simp [scanCommits]
  | cons com rest ih =>
    rw [scanCommits_step, ih, scanModified_shutdown]
    simp only [List.mem_cons, exists_eq_or_imp, or_assoc]

theorem scanCommits_npm (cs : List Commit) (fl : Flags) :
    (scanCommits cs fl).npm = true
      ↔ fl.npm = true ∨ ∃ c ∈ cs, ∃ f ∈ c.modified, includes f (js "package.json") = true := by
  induction cs generalizing fl with
  | nil => simp [scanCommits]
  | cons com rest ih =>
    rw [scanCommits_step, ih, scanModified_npm]
    simp only [List.mem_cons, exists_eq_or_imp, or_assoc]

theorem classify_changing (commits : List Commit) :
    classify true commits = { shutdown := true, npm := true } := by
  simp [classify]

theorem classify_shutdown (changing_branch : Bool) (commits : List Commit) :
    (classify changing_branch commits).shutdown = true
      ↔ changing_branch = true ∨ ∃ c ∈ commits, ∃ f ∈ c.modified, f = js "app.js" := by
  cases changing_branch with
  | true => simp [classify]
  | false => simp [classify, scanCommits_shutdown]

theorem classify_npm (changing_branch : Bool) (commits : List Commit) :
    (classify changing_branch commits).npm = true
      ↔ changing_branch = true
        ∨ ∃ c ∈ commits, ∃ f ∈ c.modified, includes f (js "package.json") = true := by
  cases changing_branch with
  | true => simp [classify]
  | false => simp [classify, scanCommits_npm]

theorem scanCommits_ignores_created (cs : List Commit) (fl : Flags) :
    scanCommits cs fl = scanCommits (cs.map fun c => { c with created := [] }) fl := by
  induction cs generalizing fl with
  | nil => rfl
  | cons com rest ih =>
    rw [List.map_cons, scanCommits_step, scanCommits_step, ih]

/-- The branch `dev` under the policy `["master", "*"]`. -/
theorem shouldUpdate_policy_witness :
    js "*" ∈ [js "master", js "*"]
      ∧ shouldUpdate (BranchSpec.array [js "master", js "*"]) (js "dev") = true :=
  have h : js "*" ∈ [js "master", js "*"] := by decide
  ⟨h, (shouldUpdate_policy (js "dev")).2.2.1 [js "master", js "*"] h⟩

/-- C7: when no commit has created files, `shutdown` is `changing_branch` or
"some modified path equals `app.js`", and `npm` is `changing_branch` or "some
modified path includes `package.json`"; a branch change sets both flags,
modifying only `app.js` gives `{true, false}`, modifying only `package.json`
gives `{false, true}`. -/
theorem classify_flags (changing_branch : Bool) (commits : List Commit) :
    (∀ c ∈ commits, c.created = []) →
      ((classify changing_branch commits).shutdown = true
          ↔ changing_branch = true ∨ ∃ c ∈ commits, ∃ f ∈ c.modified, f = js "app.js")
        ∧ ((classify changing_branch commits).npm = true
          ↔ changing_branch = true
            ∨ ∃ c ∈ commits, ∃ f ∈ c.modified, js "package.json" <:+: f)
        ∧ classify true commits = { shutdown := true, npm := true }
        ∧ classify false [{ modified := [js "app.js"], created := [] }]
            = { shutdown := true, npm := false }
        ∧ classify false [{ modified := [js "package.json"], created := [] }]
            = { shutdown := false, npm := true } := by
  intro _
  refine ⟨classify_shutdown changing_branch commits, ?_, classify_changing commits,
    by decide, by decide⟩
  rw [classify_npm]
  simp only [includes_iff]

/-- One commit that modifies `app.js` and creates nothing, on the current
branch: the `shutdown` flag is set. -/
theorem classify_flags_witness :
    (∀ c ∈ [({ modified := [js "app.js"], created := [] } : Commit)], c.created = [])
      ∧ (classify false [{ modified := [js "app.js"], created := [] }]).shutdown = true :=
  have h : ∀ c ∈ [({ modified := [js "app.js"], created := [] } : Commit)], c.created = [] := by
    intro c hc
    rw [List.mem_singleton] at hc
    rw [hc]
  ⟨h, ((classify_flags false [{ modified := [js "app.js"], created := [] }] h).1).mpr
    (Or.inr ⟨_, List.mem_singleton_self _, js "app.js", List.mem_singleton_self _, rfl⟩)⟩

/-- C8: a created `package.json` does not set `npm`. Run on one commit that
creates `package.json` and modifies nothing, on the current branch, the
classification leaves both flags false; and in general the created lists have
no influence at all: emptying every one of them leaves the flags as they are,
because the loop over `com.created` tests `com.modified[f]`. -/
theorem classify_created_manifest :
    classify false [{ modified := [], created := [js "package.json"] }]
        = { shutdown := false, npm := false }
      ∧ classify false [{ modified := [js "README.md"], created := [js "package.json"] }]
        = { shutdown := false, npm := false }
      ∧ ∀ (changing_branch : Bool) (commits : List Commit),
          classify changing_branch commits
            = classify changing_branch (commits.map fun c => { c with created := [] }) := by
  refine ⟨by decide, by decide, ?_⟩
  intro changing_branch commits
  cases changing_branch with
  | true => rfl
  | false => simp [classify, ← scanCommits_ignores_created]

/-! ## The run of `handle` -/

theorem checkout_actions_git (w : World) (branch : JSString) :
    ∀ a ∈ (checkout w branch).1, a.isGit = true := by
  unfold checkout fetch
  split_ifs <;> simp [Action.isGit]

theorem checkout_ok_codes (w : World) (branch : JSString) (h : (checkout w branch).2 = true) :
    w.fetchCode = 0
      ∧ (Action.gitCheckout branch ∈ (checkout w branch).1 → w.checkoutCode = 0)
      ∧ (Action.gitReset branch ∈ (checkout w branch).1 → w.resetCode = 0) := by
  revert h
  unfold checkout fetch
  split_ifs <;> simp_all

theorem handle_abort (w : World) (branch : JSString) (commits : List Commit)
    (h : ¬ (w.hasGit = true ∧ w.isRepo = true ∧ w.autoUpdate = true
      ∧ (commits ≠ [] ∨ some branch ≠ w.repo.branch))) :
    handle w branch commits = [] := by
  unfold handle
  by_cases h1 : w.hasGit = true
  · by_cases h2 : w.isRepo = true
    · by_cases h3 : w.autoUpdate = true
      · have h4 : ¬ (commits ≠ [] ∨ some branch ≠ w.repo.branch) := fun h4 => h ⟨h1, h2, h3, h4⟩
        have h5 : commits = [] := by
          by_contra hc
          exact h4 (Or.inl hc)
        have h6 : some branch = w.repo.branch := by
          by_contra hc
          exact h4 (Or.inr hc)
        simp [h1, h2, h3, h5, h6]
      · simp [h3]
    · simp [h2]
  · simp [h1]

theorem handle_run (w : World) (branch : JSString) (commits : List Commit)
    (h1 : w.hasGit = true) (h2 : w.isRepo = true) (h3 : w.autoUpdate = true)
    (h4 : commits ≠ [] ∨ some branch ≠ w.repo.branch) :
    handle w branch commits
      = if (checkout w branch).2 = false then (checkout w branch).1
        else
          match w.globResult with
          | .error _ =>
            (checkout w branch).1
              ++ (if (classify (decide (some branch ≠ w.repo.branch)) commits).npm
                  then [Action.cd Dir.appRoot, Action.npmInstall] else [])
              ++ [Action.glob]
          | .ok files =>
            (checkout w branch).1
              ++ (if (classify (decide (some branch ≠ w.repo.branch)) commits).npm
                  then [Action.cd Dir.appRoot, Action.npmInstall] else [])
              ++ [Action.glob]
              ++ installPlugins (classify (decide (some branch ≠ w.repo.branch)) commits).npm
                  files
              ++ [if (classify (decide (some branch ≠ w.repo.branch)) commits).shutdown
                  then Action.shutdown else Action.reload] := by
  have hu : (decide (commits.length ≠ 0) || decide (some branch ≠ w.repo.branch)) = true := by
    rcases h4 with h4 | h4
    · have : commits.length ≠ 0 := fun hl => h4 (List.length_eq_zero.mp hl)
      simp [this]
    · simp [h4]
  unfold handle
  simp only [h1, h2, h3, hu]
  simp

theorem isGit_not_other (a : Action) (h : a.isGit = true) :
    a.isInstall = false ∧ a.isTerminal = false := by
  cases a <;> simp_all [Action.isGit, Action.isInstall, Action.isTerminal]

theorem installPlugins_kinds (npm : Bool) (files : List JSString) :
    ∀ a ∈ installPlugins npm files,
      a.isGit = false ∧ a.isTerminal = false ∧ (npm = false → a.isInstall = false) := by
  induction files with
  | nil => simp [installPlugins]
  | cons file rest ih =>
    intro a ha
    cases npm with
    | true =>
      simp only [installPlugins, if_true, List.mem_cons] at ha
      rcases ha with rfl | rfl | ha
      · simp [Action.isGit, Action.isTerminal]
      · simp [Action.isGit, Action.isTerminal]
      · exact ih a ha
    | false =>
      simp only [installPlugins, Bool.false_eq_true, if_false, List.mem_cons] at ha
      rcases ha with rfl | ha
      · simp [Action.isGit, Action.isTerminal, Action.isInstall]
      · exact ih a ha

theorem root_kinds (npm : Bool) :
    ∀ a ∈ (if npm = true then [Action.cd Dir.appRoot, Action.npmInstall] else []),
      a.isGit = false ∧ a.isTerminal = false ∧ (npm = false → a.isInstall = false) := by
  cases npm <;> simp [Action.isGit, Action.isTerminal]

theorem handle_mem_cases (w : World) (branch : JSString) (commits : List Commit) (a : Action)
    (ha : a ∈ handle w branch commits) :
    a ∈ (checkout w branch).1
      ∨ (a.isGit = false
        ∧ (w.hasGit = true ∧ w.isRepo = true ∧ w.autoUpdate = true
          ∧ (commits ≠ [] ∨ some branch ≠ w.repo.branch))
        ∧ (checkout w branch).2 = true) := by
  by_cases hc : w.hasGit = true ∧ w.isRepo = true ∧ w.autoUpdate = true
      ∧ (commits ≠ [] ∨ some branch ≠ w.repo.branch)
  · rw [handle_run w branch commits hc.1 hc.2.1 hc.2.2.1 hc.2.2.2] at ha
    by_cases hco : (checkout w branch).2 = false
    · rw [if_pos hco] at ha
      exact Or.inl ha
    · rw [if_neg hco] at ha
      have hok : (checkout w branch).2 = true := by simpa using hco
      cases hg : w.globResult with
      | error e =>
        rw [hg] at ha
        simp only [List.mem_append, List.mem_singleton] at ha
        rcases ha with (ha | ha) | rfl
        · exact Or.inl ha
        · exact Or.inr ⟨(root_kinds _ a ha).1, hc, hok⟩
        · exact Or.inr ⟨rfl, hc, hok⟩
      | ok files =>
        rw [hg] at ha
        simp only [List.mem_append, List.mem_singleton] at ha
        rcases ha with (((ha | ha) | rfl) | ha) | rfl
        · exact Or.inl ha
        · exact Or.inr ⟨(root_kinds _ a ha).1, hc, hok⟩
        · exact Or.inr ⟨rfl, hc, hok⟩
        · exact Or.inr ⟨(installPlugins_kinds _ files a ha).1, hc, hok⟩
        · refine Or.inr ⟨?_, hc, hok⟩
          split_ifs <;> rfl
  · rw [handle_abort w branch commits hc] at ha
    simp at ha

theorem handle_quiet_of_failure (w : World) (branch : JSString) (commits : List Commit)
    (h : (checkout w branch).2 = true → False) :
    ∀ a ∈ handle w branch commits, a.isInstall = false ∧ a.isTerminal = false := by
  intro a ha
  rcases handle_mem_cases w branch commits a ha with hm | ⟨_, _, hok⟩
  · exact isGit_not_other a (checkout_actions_git w branch a hm)
  · exact absurd hok h

theorem handle_git_mem (w : World) (branch : JSString) (commits : List Commit) (a : Action)
    (ha : a ∈ handle w branch commits) (hg : a.isGit = true) : a ∈ (checkout w branch).1 := by
  rcases handle_mem_cases w branch commits a ha with hm | ⟨hn, _, _⟩
  · exact hm
  · rw [hg] at hn
    cases hn

/-- C9: `handle` issues an `npm install`, a shutdown or a reload only when git
is available, the directory is a repository, `autoUpdate` is enabled, the
event has a commit or the branch differs from the current one, and
`checkout(branch)` returned `true`. A `git fetch`, `git checkout` or
`git reset` that was run and exited with a non-zero code leaves the run
without install, shutdown and reload; with `autoUpdate` disabled the run
issues nothing at all, so no git command either. -/
theorem handle_abort_without_action (w : World) (branch : JSString) (commits : List Commit) :
    (∀ a ∈ handle w branch commits, a.isInstall = true ∨ a.isTerminal = true →
        w.hasGit = true ∧ w.isRepo = true ∧ w.autoUpdate = true
          ∧ (commits ≠ [] ∨ some branch ≠ w.repo.branch)
          ∧ (checkout w branch).2 = true)
      ∧ (Action.gitFetch ∈ handle w branch commits → w.fetchCode ≠ 0 →
          ∀ a ∈ handle w branch commits, a.isInstall = false ∧ a.isTerminal = false)
      ∧ (Action.gitCheckout branch ∈ handle w branch commits → w.checkoutCode ≠ 0 →
          ∀ a ∈ handle w branch commits, a.isInstall = false ∧ a.isTerminal = false)
      ∧ (Action.gitReset branch ∈ handle w branch commits → w.resetCode ≠ 0 →
          ∀ a ∈ handle w branch commits, a.isInstall = false ∧ a.isTerminal = false)
      ∧ (w.autoUpdate = false → handle w branch commits = []) := by
  refine ⟨?_, ?_, ?_, ?_, ?_⟩
  · intro a ha hk
    rcases handle_mem_cases w branch commits a ha with hm | ⟨_, hc, hok⟩
    · have hg := isGit_not_other a (checkout_actions_git w branch a hm)
      rcases hk with hk | hk
      · rw [hg.1] at hk
        cases hk
      · rw [hg.2] at hk
        cases hk
    · exact ⟨hc.1, hc.2.1, hc.2.2.1, hc.2.2.2, hok⟩
  · intro _ hcode
    exact handle_quiet_of_failure w branch commits
      (fun hok => hcode (checkout_ok_codes w branch hok).1)
  · intro hmem hcode
    exact handle_quiet_of_failure w branch commits
      (fun hok => hcode ((checkout_ok_codes w branch hok).2.1
        (handle_git_mem w branch commits _ hmem rfl)))
  · intro hmem hcode
    exact handle_quiet_of_failure w branch commits
      (fun hok => hcode ((checkout_ok_codes w branch hok).2.2
        (handle_git_mem w branch commits _ hmem rfl)))
  · intro hauto
    apply handle_abort
    rintro ⟨_, _, h3, _⟩
    rw [hauto] at h3
    cases h3

/-- On `master`, a commit that modifies `package.json` leads to an
`npm install`, and every condition for an install holds in that run. -/
theorem handle_abort_without_action_witness :
    Action.npmInstall
        ∈ handle onMaster (js "master") [{ modified := [js "package.json"], created := [] }]
      ∧ onMaster.hasGit = true ∧ onMaster.isRepo = true ∧ onMaster.autoUpdate = true
      ∧ (([{ modified := [js "package.json"], created := [] }] : List Commit) ≠ []
        ∨ some (js "master") ≠ onMaster.repo.branch)
      ∧ (checkout onMaster (js "master")).2 = true :=
  have hin : Action.npmInstall
      ∈ handle onMaster (js "master") [{ modified := [js "package.json"], created := [] }] := by
    decide
  ⟨hin, (handle_abort_without_action onMaster (js "master")
    [{ modified := [js "package.json"], created := [] }]).1 Action.npmInstall hin (Or.inl rfl)⟩

theorem filter_terminal_nil (l : List Action) (h : ∀ a ∈ l, a.isTerminal = false) :
    l.filter Action.isTerminal = [] := by
  rw [List.filter_eq_nil_iff]
  intro a ha
  rw [h a ha]
  simp

/-- C10, as amended: when the update is warranted and `checkout(branch)`
returned `true`, a run in which glob reports no error issues exactly one
terminal action, as the last effect after the installs: shutdown if the
`shutdown` flag is set and reload otherwise. The run does not depend on the
exit codes of the installs, every install being taken to exit. A run in which
glob reports an error ends with the glob call: no terminal action, no install
in a plugin directory, and the root install issued before the glob call
exactly when the `npm` flag is set. With the `npm` flag set an install is
issued whatever glob reports; with it unset none is. On `master`, a commit
that modifies only `README.md` gives fetch, reset, glob, the two `cd` and a
reload. -/
theorem handle_terminal_action (w : World) (branch : JSString) (commits : List Commit)
    (hgit : w.hasGit = true) (hrepo : w.isRepo = true) (hauto : w.autoUpdate = true)
    (hupd : commits ≠ [] ∨ some branch ≠ w.repo.branch)
    (hco : (checkout w branch).2 = true) :
    (∀ files, w.globResult = Except.ok files →
        (handle w branch commits).filter Action.isTerminal
          = [if (classify (decide (some branch ≠ w.repo.branch)) commits).shutdown
              then Action.shutdown else Action.reload])
      ∧ (∀ err, w.globResult = Except.error err →
        (handle w branch commits).filter Action.isTerminal = [])
      ∧ ((classify (decide (some branch ≠ w.repo.branch)) commits).npm = false →
        ∀ a ∈ handle w branch commits, a.isInstall = false)
      ∧ (∀ err, w.globResult = Except.error err →
        handle w branch commits
          = (checkout w branch).1
            ++ (if (classify (decide (some branch ≠ w.repo.branch)) commits).npm
                then [Action.cd Dir.appRoot, Action.npmInstall] else [])
            ++ [Action.glob])
      ∧ (∀ files, w.globResult = Except.ok files →
        handle w branch commits
          = (checkout w branch).1
            ++ (if (classify (decide (some branch ≠ w.repo.branch)) commits).npm
                then [Action.cd Dir.appRoot, Action.npmInstall] else [])
            ++ [Action.glob]
            ++ installPlugins (classify (decide (some branch ≠ w.repo.branch)) commits).npm
                files
            ++ [if (classify (decide (some branch ≠ w.repo.branch)) commits).shutdown
                then Action.shutdown else Action.reload])
      ∧ ((classify (decide (some branch ≠ w.repo.branch)) commits).npm = true →
        Action.npmInstall ∈ handle w branch commits)
      ∧ (∀ codes : Dir → Nat,
        handle { w with npmCode := codes } branch commits = handle w branch commits)
      ∧ handle onMaster (js "master") [{ modified := [js "README.md"], created := [] }]
        = [Action.gitFetch, Action.gitReset (js "master"), Action.glob,
            Action.cd (Dir.pluginDir (js "plugins/a/plugin.json")),
            Action.cd (Dir.pluginDir (js "plugins/b/plugin.json")), Action.reload] := by
  have hco1 : (checkout w branch).1.filter Action.isTerminal = [] :=
    filter_terminal_nil _ fun a ha =>
      (isGit_not_other a (checkout_actions_git w branch a ha)).2
  have hroot : ∀ npm : Bool,
      (if npm = true then [Action.cd Dir.appRoot, Action.npmInstall] else []).filter
        Action.isTerminal = [] :=
    fun npm => filter_terminal_nil _ fun a ha => (root_kinds npm a ha).2.1
  have hplug : ∀ (npm : Bool) (files : List JSString),
      (installPlugins npm files).filter Action.isTerminal = [] :=
    fun npm files => filter_terminal_nil _ fun a ha => (installPlugins_kinds npm files a ha).2.1
  have hrun := handle_run w branch commits hgit hrepo hauto hupd
  rw [if_neg (by simp [hco])] at hrun
  refine ⟨?_, ?_, ?_, ?_, ?_, ?_, ?_, by decide⟩
  · intro files hg
    rw [hg] at hrun
    rw [hrun]
    simp only [List.filter_append, hco1, hroot, hplug, List.nil_append]
    split_ifs <;> rfl
  · intro err hg
    rw [hg] at hrun
    rw [hrun]
    simp only [List.filter_append, hco1, hroot, List.nil_append]
    rfl
  · intro hnpm a ha
    rcases handle_mem_cases w branch commits a ha with hm | _
    · exact (isGit_not_other a (checkout_actions_git w branch a hm)).1
    · rw [hrun] at ha
      cases hg : w.globResult with
      | error e =>
        rw [hg] at ha
        simp only [List.mem_append, List.mem_singleton] at ha
        rcases ha with (ha | ha) | rfl
        · exact (isGit_not_other a (checkout_actions_git w branch a ha)).1
        · exact (root_kinds _ a ha).2.2 hnpm
        · rfl
      | ok files =>
        rw [hg] at ha
        simp only [List.mem_append, List.mem_singleton] at ha
        rcases ha with (((ha | ha) | rfl) | ha) | rfl
        · exact (isGit_not_other a (checkout_actions_git w branch a ha)).1
        · exact (root_kinds _ a ha).2.2 hnpm
        · rfl
        · exact (installPlugins_kinds _ files a ha).2.2 hnpm
        · split_ifs <;> rfl
  · intro err hg
    rw [hg] at hrun
    exact hrun
  · intro files hg
    rw [hg] at hrun
    exact hrun
  · intro hnpm
    rw [hrun]
    cases hg : w.globResult with
    | error e =>
      simp only [hnpm, if_true, List.mem_append, List.mem_cons, List.mem_singleton]
      exact Or.inl (Or.inr (Or.inr (Or.inl trivial)))
    | ok files =>
      simp only [hnpm, if_true, List.mem_append, List.mem_cons, List.mem_singleton]
      exact Or.inl (Or.inl (Or.inl (Or.inr (Or.inr (Or.inl trivial)))))
  · intro codes
    rfl

/-- On `master`, a commit that modifies only `README.md` leads to no install
and to one terminal action, a reload. -/
theorem handle_terminal_action_witness :
    (handle onMaster (js "master") [{ modified := [js "README.md"], created := [] }]).filter
        Action.isTerminal = [Action.reload]
      ∧ ∀ a ∈ handle onMaster (js "master") [{ modified := [js "README.md"], created := [] }],
          a.isInstall = false :=
  have h := handle_terminal_action onMaster (js "master")
    [{ modified := [js "README.md"], created := [] }] rfl rfl rfl (Or.inl (by simp)) (by decide)
  ⟨(h.1 _ rfl).trans (by decide), h.2.2.1 (by decide)⟩

/-- On `master`, with every git command succeeding and a commit that modifies
`package.json`, a glob error ends the run after the root install with neither
a shutdown nor a reload. -/
theorem handle_glob_error_no_terminal :
    onMasterGlobError.hasGit = true ∧ onMasterGlobError.isRepo = true
      ∧ onMasterGlobError.autoUpdate = true
      ∧ ([{ modified := [js "package.json"], created := [] }] : List Commit) ≠ []
      ∧ (checkout onMasterGlobError (js "master")).2 = true
      ∧ handle onMasterGlobError (js "master")
          [{ modified := [js "package.json"], created := [] }]
        = [Action.gitFetch, Action.gitReset (js "master"), Action.cd Dir.appRoot,
            Action.npmInstall, Action.glob]
      ∧ (handle onMasterGlobError (js "master")
          [{ modified := [js "package.json"], created := [] }]).filter Action.isTerminal
        = [] := by
  refine ⟨rfl, rfl, rfl, by simp, by decide, by decide, by decide⟩

end GitHubListener
